import Mathlib

/-!
Verification of the custom CSV codec (`custom_csv.py`, `custom_csv_writer.py`).

Python strings are modelled as `List Char`; a field is a `List Char`, a row is a
`List (List Char)`.  The reader's character stream is the list of characters it
has not yet consumed, with the one-character pushback buffer represented by
prepending the pushed-back character to that list (faithful because
`_read_char` always drains the buffer first, and the buffer never holds more
than one character).  Python's empty-string read at end-of-file corresponds to
the stream being `[]`; `_unread_char("")` leaves the buffer falsy, i.e. is a
no-op, so only real characters are ever pushed back.
-/

/-- Reader-side dialect: the `delimiter` and `quotechar` constructor arguments
of `CustomCsvReader.__init__`. -/
structure Dialect where
  delimiter : Char
  quotechar : Char

/-- Writer-side dialect: the `delimiter`, `quotechar` and `line_terminator`
constructor arguments of `CustomCsvWriter.__init__`. -/
structure WriterDialect where
  delimiter : Char
  quotechar : Char
  lineTerminator : List Char

/-- The reader dialect a writer dialect induces (same delimiter and quote). -/
def WriterDialect.toReader (w : WriterDialect) : Dialect :=
  ⟨w.delimiter, w.quotechar⟩

/-- Default constructor arguments: `delimiter=","`, `quotechar='"'`. -/
def defaultDialect : Dialect := ⟨',', '"'⟩

/-- Default writer arguments: `delimiter=","`, `quotechar='"'`,
`line_terminator="\n"`. -/
def defaultWriter : WriterDialect := ⟨',', '"', ['\n']⟩

/-- State of a `CustomCsvReader` between calls to `__next__`: the characters
not yet consumed (pushback buffer, when occupied, at the head) and the
`_eof` flag. -/
structure ReaderState where
  stream : List Char
  eof : Bool

/-- The `while True` loop of `CustomCsvReader.__next__`, one complete call:
arguments are the unconsumed characters, `field_chars`, `row` and `in_quotes`;
the result is the parsed row (`some row` for `return row`, `none` for
`raise StopIteration`), the unconsumed characters left over, and the value of
`_eof` after the call.  Branches appear in the source's order: end-of-file,
quote character, delimiter outside quotes, `\n`/`\r` outside quotes, and the
default append.  When a quote is read inside quotes and the stream is empty,
the source reads `next_ch = ""`, clears `in_quotes`, pushes back the empty
string (a no-op) and on the next iteration hits the end-of-file branch; that
end-of-file outcome is written out directly here. -/
def nextLoop (d : Dialect) :
    List Char → List Char → List (List Char) → Bool →
      Option (List (List Char)) × List Char × Bool
  | [], field, row, _ =>
      if field = [] ∧ row = [] then (none, [], true)
      else (some (row ++ [field]), [], true)
  | ch :: rest, field, row, in_quotes =>
      if ch = d.quotechar then
        if in_quotes then
          match rest with
          | [] =>
              if field = [] ∧ row = [] then (none, [], true)
              else (some (row ++ [field]), [], true)
          | c2 :: rest2 =>
              if c2 = d.quotechar then
                nextLoop d rest2 (field ++ [d.quotechar]) row true
              else
                nextLoop d (c2 :: rest2) field row false
        else
          nextLoop d rest field row true
      else if ch = d.delimiter ∧ in_quotes = false then
        nextLoop d rest [] (row ++ [field]) false
      else if (ch = '\n' ∨ ch = '\r') ∧ in_quotes = false then
        if ch = '\r' then
          match rest with
          | [] => (some (row ++ [field]), [], false)
          | c2 :: rest2 =>
              if c2 = '\n' then (some (row ++ [field]), rest2, false)
              else (some (row ++ [field]), c2 :: rest2, false)
        else (some (row ++ [field]), rest, false)
      else
        nextLoop d rest (field ++ [ch]) row in_quotes

/-- One call to `CustomCsvReader.__next__` on a reader state: if `_eof` is
already set, raise `StopIteration` immediately (touching nothing); otherwise
run the parsing loop with fresh accumulators. -/
def csvNext (d : Dialect) (s : ReaderState) :
    Option (List (List Char)) × ReaderState :=
  if s.eof then (none, s)
  else
    match nextLoop d s.stream [] [] false with
    | (r, rest, e) => (r, ⟨rest, e⟩)

/-- Iterating the reader to exhaustion (`for row in reader`), fuel-bounded:
collects rows until `StopIteration`.  Any fuel exceeding the number of rows
produced gives the full iteration. -/
def readRows (d : Dialect) : Nat → ReaderState → List (List (List Char))
  | 0, _ => []
  | fuel + 1, s =>
      match csvNext d s with
      | (none, _) => []
      | (some row, s2) => row :: readRows d fuel s2

/-- `text.replace(quotechar, quotechar * 2)` for a one-character `quotechar`:
every occurrence of the quote character is doubled. -/
def doubleQuotes (q : Char) : List Char → List Char
  | [] => []
  | c :: cs =>
      if c = q then q :: q :: doubleQuotes q cs
      else c :: doubleQuotes q cs

/-- `CustomCsvWriter._quote_field`: quote the field when it contains the
delimiter, the quote character, `"\n"` or `"\r"`, doubling inner quote
characters; otherwise return it verbatim.  (Membership of a single character
in the text is exactly Python's substring test for a one-character needle.) -/
def quoteField (w : WriterDialect) (text : List Char) : List Char :=
  if w.delimiter ∈ text ∨ w.quotechar ∈ text ∨ '\n' ∈ text ∨ '\r' ∈ text then
    w.quotechar :: (doubleQuotes w.quotechar text ++ [w.quotechar])
  else text

/-- Continuation of `joinFields` past the first part: each further part is
preceded by the delimiter. -/
def joinRest (dl : Char) : List (List Char) → List Char
  | [] => []
  | p :: ps => dl :: (p ++ joinRest dl ps)

/-- `self.delimiter.join(parts)` for a one-character delimiter. -/
def joinFields (dl : Char) : List (List Char) → List Char
  | [] => []
  | p :: ps => p ++ joinRest dl ps

/-- `CustomCsvWriter.writerow`: append the joined, quoted fields plus the line
terminator to the sink (the file contents written so far). -/
def writerow (w : WriterDialect) (sink : List Char)
    (row : List (List Char)) : List Char :=
  sink ++ (joinFields w.delimiter (row.map (quoteField w)) ++ w.lineTerminator)

/-- `CustomCsvWriter.writerows`: write each row in order. -/
def writerows (w : WriterDialect) (sink : List Char)
    (rows : List (List (List Char))) : List Char :=
  rows.foldl (writerow w) sink

/-- Backward-compatible alias `CustomCsvWriter.write_row`: calls `writerow`. -/
def write_row (w : WriterDialect) (sink : List Char)
    (row : List (List Char)) : List Char :=
  writerow w sink row

/-- Backward-compatible alias `CustomCsvWriter.write_rows`: calls
`writerows`. -/
def write_rows (w : WriterDialect) (sink : List Char)
    (rows : List (List (List Char))) : List Char :=
  writerows w sink rows

/-- The base class's `writerow` as the subclass in `custom_csv_writer.py`
calls it inside `try … except AttributeError`: in this embedding the base
method exists and is a total pure append, so the call always succeeds
(`Except.ok`); `AttributeError` would be the `Except.error` case. -/
def writerowE (w : WriterDialect) (sink : List Char)
    (row : List (List Char)) : Except Unit (List Char) :=
  Except.ok (writerow w sink row)

/-- Same for the base class's `writerows`. -/
def writerowsE (w : WriterDialect) (sink : List Char)
    (rows : List (List (List Char))) : Except Unit (List Char) :=
  Except.ok (writerows w sink rows)

/-- `writerow` of the subclass in `custom_csv_writer.py`: try the parent
implementation first; only on `AttributeError` fall back to the `write_row`
alias (the `hasattr(self, "write_row")` branch, which always holds since the
base class defines the alias). -/
def sub_writerow (w : WriterDialect) (sink : List Char)
    (row : List (List Char)) : Except Unit (List Char) :=
  match writerowE w sink row with
  | Except.ok s2 => Except.ok s2
  | Except.error _ => Except.ok (write_row w sink row)

/-- `writerows` of the subclass in `custom_csv_writer.py`: try the parent
implementation first; only on `AttributeError` fall back to the `write_rows`
alias. -/
def sub_writerows (w : WriterDialect) (sink : List Char)
    (rows : List (List (List Char))) : Except Unit (List Char) :=
  match writerowsE w sink rows with
  | Except.ok s2 => Except.ok s2
  | Except.error _ => Except.ok (write_rows w sink rows)

/-! ### Scanning lemmas for the reader state machine -/

/-- A character the reader copies verbatim outside quotes: not the quote
character, not the delimiter, not a line break. -/
def plainChar (d : Dialect) (c : Char) : Prop :=
  c ≠ d.quotechar ∧ c ≠ d.delimiter ∧ c ≠ '\n' ∧ c ≠ '\r'

instance (d : Dialect) (c : Char) : Decidable (plainChar d c) := by
  unfold plainChar; infer_instance

lemma nextLoop_nil (d : Dialect) (field : List Char) (row : List (List Char))
    (iq : Bool) :
    nextLoop d [] field row iq =
      if field = [] ∧ row = [] then (none, [], true)
      else (some (row ++ [field]), [], true) := by
  rw [nextLoop.eq_def]

lemma step_quote_open (d : Dialect) (rest field : List Char)
    (row : List (List Char)) :
    nextLoop d (d.quotechar :: rest) field row false =
      nextLoop d rest field row true := by
  rw [nextLoop.eq_def]; simp only []; simp

lemma step_escaped (d : Dialect) (rest2 field : List Char)
    (row : List (List Char)) :
    nextLoop d (d.quotechar :: d.quotechar :: rest2) field row true =
      nextLoop d rest2 (field ++ [d.quotechar]) row true := by
  rw [nextLoop.eq_def]; simp only []; simp

lemma step_close (d : Dialect) (c2 : Char) (rest2 field : List Char)
    (row : List (List Char)) (h : c2 ≠ d.quotechar) :
    nextLoop d (d.quotechar :: c2 :: rest2) field row true =
      nextLoop d (c2 :: rest2) field row false := by
  rw [nextLoop.eq_def]; simp only []; simp [h]

lemma step_close_eof (d : Dialect) (field : List Char) (row : List (List Char)) :
    nextLoop d [d.quotechar] field row true =
      if field = [] ∧ row = [] then (none, [], true)
      else (some (row ++ [field]), [], true) := by
  rw [nextLoop.eq_def]; simp only []; simp

lemma step_delim (d : Dialect) (rest field : List Char) (row : List (List Char))
    (h : d.delimiter ≠ d.quotechar) :
    nextLoop d (d.delimiter :: rest) field row false =
      nextLoop d rest [] (row ++ [field]) false := by
  rw [nextLoop.eq_def]; simp only []; simp [h]

lemma step_lf (d : Dialect) (rest field : List Char) (row : List (List Char))
    (hq : ('\n' : Char) ≠ d.quotechar) (hd : ('\n' : Char) ≠ d.delimiter) :
    nextLoop d ('\n' :: rest) field row false =
      (some (row ++ [field]), rest, false) := by
  rw [nextLoop.eq_def]; simp only []; simp [hq, hd]

lemma step_cr_nil (d : Dialect) (field : List Char) (row : List (List Char))
    (hq : ('\r' : Char) ≠ d.quotechar) (hd : ('\r' : Char) ≠ d.delimiter) :
    nextLoop d ['\r'] field row false = (some (row ++ [field]), [], false) := by
  rw [nextLoop.eq_def]; simp only []; simp [hq, hd]

lemma step_cr_lf (d : Dialect) (rest2 field : List Char) (row : List (List Char))
    (hq : ('\r' : Char) ≠ d.quotechar) (hd : ('\r' : Char) ≠ d.delimiter) :
    nextLoop d ('\r' :: '\n' :: rest2) field row false =
      (some (row ++ [field]), rest2, false) := by
  rw [nextLoop.eq_def]; simp only []; simp [hq, hd]

lemma step_cr_other (d : Dialect) (c2 : Char) (rest2 field : List Char)
    (row : List (List Char)) (hq : ('\r' : Char) ≠ d.quotechar)
    (hd : ('\r' : Char) ≠ d.delimiter) (h2 : c2 ≠ '\n') :
    nextLoop d ('\r' :: c2 :: rest2) field row false =
      (some (row ++ [field]), c2 :: rest2, false) := by
  rw [nextLoop.eq_def]; simp only []; simp [hq, hd, h2]

lemma step_other (d : Dialect) (c : Char) (rest field : List Char)
    (row : List (List Char)) (hc : plainChar d c) :
    nextLoop d (c :: rest) field row false =
      nextLoop d rest (field ++ [c]) row false := by
  obtain ⟨h1, h2, h3, h4⟩ := hc
  rw [nextLoop.eq_def]; simp only []; simp [h1, h2, h3, h4]

lemma step_inquotes_other (d : Dialect) (c : Char) (rest field : List Char)
    (row : List (List Char)) (h : c ≠ d.quotechar) :
    nextLoop d (c :: rest) field row true =
      nextLoop d rest (field ++ [c]) row true := by
  rw [nextLoop.eq_def]; simp only []; simp [h]

lemma scan_plain (d : Dialect) (f : List Char) (hf : ∀ c ∈ f, plainChar d c) :
    ∀ rest field row, nextLoop d (f ++ rest) field row false =
      nextLoop d rest (field ++ f) row false := by
  induction f with
  | nil => intro rest field row; simp
  | cons c cs ih =>
      intro rest field row
      have hstep := step_other d c (cs ++ rest) field row (hf c (by simp))
      rw [List.cons_append, hstep,
        ih (fun x hx => hf x (List.mem_cons_of_mem c hx)) rest (field ++ [c]) row,
        List.append_assoc]
      rfl

lemma scan_quoted (d : Dialect) (f : List Char) :
    ∀ c2 rest2 field row, c2 ≠ d.quotechar →
      nextLoop d (doubleQuotes d.quotechar f ++ d.quotechar :: c2 :: rest2)
          field row true =
        nextLoop d (c2 :: rest2) (field ++ f) row false := by
  induction f with
  | nil =>
      intro c2 rest2 field row h
      rw [doubleQuotes, List.nil_append, step_close d c2 rest2 field row h,
        List.append_nil]
  | cons c cs ih =>
      intro c2 rest2 field row h
      by_cases hc : c = d.quotechar
      · subst hc
        rw [doubleQuotes, if_pos rfl, List.cons_append, List.cons_append,
          step_escaped, ih c2 rest2 (field ++ [d.quotechar]) row h,
          List.append_assoc]
        rfl
      · rw [doubleQuotes, if_neg hc, List.cons_append,
          step_inquotes_other d c _ field row hc,
          ih c2 rest2 (field ++ [c]) row h, List.append_assoc]
        rfl

lemma toReader_delimiter (w : WriterDialect) :
    w.toReader.delimiter = w.delimiter := rfl

lemma toReader_quotechar (w : WriterDialect) :
    w.toReader.quotechar = w.quotechar := rfl

/-- A dialect configuration under which the format is unambiguous: the
delimiter differs from the quote character, and neither is a line-break
character. -/
def saneWriter (w : WriterDialect) : Prop :=
  w.delimiter ≠ w.quotechar ∧ w.delimiter ≠ '\n' ∧ w.delimiter ≠ '\r' ∧
    w.quotechar ≠ '\n' ∧ w.quotechar ≠ '\r'

instance (w : WriterDialect) : Decidable (saneWriter w) := by
  unfold saneWriter; infer_instance

lemma scan_quoteField (w : WriterDialect) (hs : saneWriter w) (f : List Char)
    (c2 : Char) (h2 : c2 = w.delimiter ∨ c2 = '\n' ∨ c2 = '\r')
    (rest2 field : List Char) (row : List (List Char)) :
    nextLoop w.toReader (quoteField w f ++ c2 :: rest2) field row false =
      nextLoop w.toReader (c2 :: rest2) (field ++ f) row false := by
  obtain ⟨hdq, hd1, hd2, hq1, hq2⟩ := hs
  have hc2q : c2 ≠ w.quotechar := by
    rcases h2 with h | h | h <;> subst h
    · exact hdq
    · exact fun hh => hq1 hh.symm
    · exact fun hh => hq2 hh.symm
  unfold quoteField
  by_cases hneed : w.delimiter ∈ f ∨ w.quotechar ∈ f ∨ '\n' ∈ f ∨ '\r' ∈ f
  · rw [if_pos hneed]
    have hopen := step_quote_open w.toReader
      (doubleQuotes w.quotechar f ++ w.quotechar :: c2 :: rest2) field row
    simp only [toReader_quotechar] at hopen
    have hquoted := scan_quoted w.toReader f c2 rest2 field row
      (by simpa only [toReader_quotechar] using hc2q)
    simp only [toReader_quotechar] at hquoted
    rw [List.cons_append, List.append_assoc, List.singleton_append, hopen,
      hquoted]
  · rw [if_neg hneed]
    push_neg at hneed
    obtain ⟨g1, g2, g3, g4⟩ := hneed
    refine scan_plain w.toReader f ?_ (c2 :: rest2) field row
    intro c hc
    simp only [plainChar, toReader_quotechar, toReader_delimiter]
    exact ⟨fun h => g2 (h ▸ hc), fun h => g1 (h ▸ hc),
      fun h => g3 (h ▸ hc), fun h => g4 (h ▸ hc)⟩

/-- The three row terminators the reader accepts at the end of a row, the
third only when the following character is not `\n` (else the `\r\n`
normalization would consume it). -/
def rowTermOk (term rest : List Char) : Prop :=
  term = ['\n'] ∨ term = ['\r', '\n'] ∨
    (term = ['\r'] ∧ rest.head? ≠ some '\n')

lemma scan_term (w : WriterDialect) (hs : saneWriter w) (term rest field :
    List Char) (row : List (List Char)) (hterm : rowTermOk term rest) :
    nextLoop w.toReader (term ++ rest) field row false =
      (some (row ++ [field]), rest, false) := by
  obtain ⟨hdq, hd1, hd2, hq1, hq2⟩ := hs
  have hlq : ('\n' : Char) ≠ w.toReader.quotechar := fun h => hq1 h.symm
  have hld : ('\n' : Char) ≠ w.toReader.delimiter := fun h => hd1 h.symm
  have hrq : ('\r' : Char) ≠ w.toReader.quotechar := fun h => hq2 h.symm
  have hrd : ('\r' : Char) ≠ w.toReader.delimiter := fun h => hd2 h.symm
  rcases hterm with h | h | ⟨h, hrest⟩ <;> subst h
  · exact step_lf w.toReader rest field row hlq hld
  · rw [List.cons_append, List.cons_append, List.nil_append]
    exact step_cr_lf w.toReader rest field row hrq hrd
  · rw [List.cons_append, List.nil_append]
    cases rest with
    | nil => exact step_cr_nil w.toReader field row hrq hrd
    | cons c2 rest2 =>
        have hc2 : c2 ≠ '\n' := by
          intro hh; exact hrest (by simp [hh])
        exact step_cr_other w.toReader c2 rest2 field row hrq hrd hc2

lemma joinRest_nil (dl : Char) : joinRest dl [] = [] := rfl

lemma joinRest_cons (dl : Char) (p : List Char) (ps : List (List Char)) :
    joinRest dl (p :: ps) = dl :: (p ++ joinRest dl ps) := rfl

lemma joinFields_nil (dl : Char) : joinFields dl [] = [] := rfl

lemma joinFields_cons (dl : Char) (p : List Char) (ps : List (List Char)) :
    joinFields dl (p :: ps) = p ++ joinRest dl ps := rfl

/-- The row the reader flushes when the pending field accumulator `acc` is
followed by the written fields `fields`: the first written field is glued onto
the accumulator. -/
def consHead (acc : List Char) : List (List Char) → List (List Char)
  | [] => [acc]
  | f :: fs => (acc ++ f) :: fs

lemma consHead_nil (acc : List Char) : consHead acc [] = [acc] := rfl

lemma consHead_cons (acc f : List Char) (fs : List (List Char)) :
    consHead acc (f :: fs) = (acc ++ f) :: fs := rfl

lemma scan_row (w : WriterDialect) (hs : saneWriter w)
    (fields : List (List Char)) :
    ∀ term rest field row, rowTermOk term rest →
      nextLoop w.toReader
          (joinFields w.delimiter (fields.map (quoteField w)) ++ term ++ rest)
          field row false =
        (some (row ++ consHead field fields), rest, false) := by
  induction fields with
  | nil =>
      intro term rest field row hterm
      rw [List.map_nil, joinFields_nil, List.nil_append]
      exact scan_term w hs term rest field row hterm
  | cons f fs ih =>
      intro term rest field row hterm
      cases fs with
      | nil =>
          rw [List.map_cons, List.map_nil, joinFields_cons, joinRest_nil,
            List.append_nil, List.append_assoc]
          rcases hterm with h | h | ⟨h, hrest⟩ <;> subst h
          · rw [List.singleton_append,
              scan_quoteField w hs f '\n' (Or.inr (Or.inl rfl)) rest field row]
            exact scan_term w hs ['\n'] rest (field ++ f) row (Or.inl rfl)
          · rw [show (['\r', '\n'] : List Char) ++ rest = '\r' :: '\n' :: rest
              from rfl,
              scan_quoteField w hs f '\r' (Or.inr (Or.inr rfl)) ('\n' :: rest)
                field row]
            exact scan_term w hs ['\r', '\n'] rest (field ++ f) row
              (Or.inr (Or.inl rfl))
          · rw [show (['\r'] : List Char) ++ rest = '\r' :: rest from rfl,
              scan_quoteField w hs f '\r' (Or.inr (Or.inr rfl)) rest field row]
            exact scan_term w hs ['\r'] rest (field ++ f) row
              (Or.inr (Or.inr ⟨rfl, hrest⟩))
      | cons f2 fs2 =>
          rw [List.map_cons, joinFields_cons, List.map_cons, joinRest_cons,
            ← joinFields_cons, ← List.map_cons]
          have hshape :
              (quoteField w f ++
                  (w.delimiter ::
                    joinFields w.delimiter ((f2 :: fs2).map (quoteField w)))) ++
                term ++ rest =
              quoteField w f ++ w.delimiter ::
                (joinFields w.delimiter ((f2 :: fs2).map (quoteField w)) ++
                  term ++ rest) := by
            simp [List.append_assoc]
          rw [hshape,
            scan_quoteField w hs f w.delimiter (Or.inl rfl) _ field row]
          have hdstep := step_delim w.toReader
            (joinFields w.delimiter ((f2 :: fs2).map (quoteField w)) ++ term ++
              rest) (field ++ f) row hs.1
          simp only [toReader_delimiter] at hdstep
          rw [hdstep, ih term rest [] (row ++ [field ++ f]) hterm]
          simp [consHead_cons, List.append_assoc]

/-- The full text `writerows` appends for a list of rows: each row's joined,
quoted fields followed by the line terminator. -/
def rowsText (w : WriterDialect) (rows : List (List (List Char))) : List Char :=
  (rows.map (fun r =>
    joinFields w.delimiter (r.map (quoteField w)) ++ w.lineTerminator)).flatten

lemma writerows_eq (w : WriterDialect) :
    ∀ (rows : List (List (List Char))) (sink : List Char),
      writerows w sink rows = sink ++ rowsText w rows := by
  intro rows
  induction rows with
  | nil => intro sink; simp [writerows, rowsText]
  | cons r rs ih =>
      intro sink
      show writerows w (writerow w sink r) rs = _
      rw [ih (writerow w sink r)]
      simp [writerow, rowsText, List.append_assoc]

/-- A list whose first character, if any, is not `\n`. -/
def notLfHead (l : List Char) : Prop := l.head? ≠ some '\n'

lemma notLfHead_nil : notLfHead [] := by simp [notLfHead]

lemma notLfHead_cons {c : Char} (h : c ≠ '\n') (l : List Char) :
    notLfHead (c :: l) := by simp [notLfHead, h]

lemma notLfHead_append {a b : List Char} (ha : notLfHead a)
    (hb : notLfHead b) : notLfHead (a ++ b) := by
  cases a with
  | nil => simpa using hb
  | cons c l => simpa [notLfHead] using ha

lemma notLfHead_quoteField (w : WriterDialect) (hs : saneWriter w)
    (f : List Char) : notLfHead (quoteField w f) := by
  unfold quoteField
  by_cases hneed : w.delimiter ∈ f ∨ w.quotechar ∈ f ∨ '\n' ∈ f ∨ '\r' ∈ f
  · rw [if_pos hneed]
    exact notLfHead_cons hs.2.2.2.1 _
  · rw [if_neg hneed]
    push_neg at hneed
    cases f with
    | nil => exact notLfHead_nil
    | cons c l =>
        refine notLfHead_cons ?_ l
        intro h
        exact hneed.2.2.1 (by simp [h])

lemma notLfHead_join (w : WriterDialect) (hs : saneWriter w)
    (r : List (List Char)) :
    notLfHead (joinFields w.delimiter (r.map (quoteField w))) := by
  cases r with
  | nil => exact notLfHead_nil
  | cons f fs =>
      rw [List.map_cons, joinFields_cons]
      refine notLfHead_append (notLfHead_quoteField w hs f) ?_
      cases fs with
      | nil => exact notLfHead_nil
      | cons f2 fs2 =>
          rw [List.map_cons, joinRest_cons]
          exact notLfHead_cons hs.2.1 _

lemma notLfHead_rowsText (w : WriterDialect) (hs : saneWriter w)
    (hterm : notLfHead w.lineTerminator)
    (rows : List (List (List Char))) : notLfHead (rowsText w rows) := by
  induction rows with
  | nil => exact notLfHead_nil
  | cons r rs ih =>
      show notLfHead
        ((joinFields w.delimiter (r.map (quoteField w)) ++ w.lineTerminator) ++
          rowsText w rs)
      exact notLfHead_append
        (notLfHead_append (notLfHead_join w hs r) hterm) ih

/-- Reading back the exact text written for a list of rows reproduces the
rows, provided the dialect is sane, the line terminator is one the reader
recognizes, and no row is the empty sequence of fields. -/
lemma readback (w : WriterDialect) (hs : saneWriter w)
    (hterm : w.lineTerminator = ['\n'] ∨ w.lineTerminator = ['\r', '\n'] ∨
      w.lineTerminator = ['\r'])
    (rows : List (List (List Char))) (hrows : ∀ r ∈ rows, r ≠ []) :
    ∀ fuel, rows.length < fuel →
      readRows w.toReader fuel ⟨rowsText w rows, false⟩ = rows := by
  induction rows with
  | nil =>
      intro fuel hf
      obtain ⟨k, rfl⟩ : ∃ k, fuel = k + 1 :=
        ⟨fuel - 1, by omega⟩
      show readRows w.toReader (k + 1) ⟨[], false⟩ = []
      rw [readRows]
      have : csvNext w.toReader ⟨[], false⟩ = (none, ⟨[], true⟩) := by
        simp [csvNext, nextLoop_nil]
      rw [this]
  | cons r rs ih =>
      intro fuel hf
      obtain ⟨k, rfl⟩ : ∃ k, fuel = k + 1 := ⟨fuel - 1, by omega⟩
      have hr : r ≠ [] := hrows r (by simp)
      have hscan := scan_row w hs r w.lineTerminator (rowsText w rs) [] []
        (by
          rcases hterm with h | h | h
          · exact Or.inl h
          · exact Or.inr (Or.inl h)
          · refine Or.inr (Or.inr ⟨h, ?_⟩)
            exact notLfHead_rowsText w hs (by simp [notLfHead, h]) rs)
      have hchunk :
          rowsText w (r :: rs) =
            joinFields w.delimiter (r.map (quoteField w)) ++ w.lineTerminator ++
              rowsText w rs := by
        simp [rowsText, List.append_assoc]
      have hcons : consHead ([] : List Char) r = r := by
        cases r with
        | nil => exact absurd rfl hr
        | cons f fs => rw [consHead_cons, List.nil_append]
      rw [readRows]
      have hnext : csvNext w.toReader ⟨rowsText w (r :: rs), false⟩ =
          (some r, ⟨rowsText w rs, false⟩) := by
        rw [csvNext]
        simp only [Bool.false_eq_true, if_false]
        rw [hchunk, hscan]
        rw [List.nil_append, hcons]
      rw [hnext]
      show r :: readRows w.toReader k ⟨rowsText w rs, false⟩ = r :: rs
      rw [ih (fun x hx => hrows x (List.mem_cons_of_mem r hx)) k
        (by simpa using hf)]

/-! ### C1: write/read round trip -/

/-- C1 counterexample: the round-trip claim fails for some dialects whose
delimiter is distinct from the quote character, and for rows with zero
fields.  With delimiter `\n` (≠ `"`), writing the two rows `[["a"], ["b"]]`
reads back as the single row `["a", "b", ""]`; with the default dialect,
writing the single zero-field row reads back as one row holding one empty
field; with line terminator `"x"`, writing `[["a"]]` reads back as
`[["ax"]]`. -/
theorem c1_roundtrip_cx :
    (('\n' : Char) ≠ '"') ∧
    readRows ⟨'\n', '"'⟩ 3
        ⟨writerows ⟨'\n', '"', ['\n']⟩ [] [[['a']], [['b']]], false⟩ =
      [[['a'], ['b'], []]] ∧
    ([[['a'], ['b'], []]] : List (List (List Char))) ≠ [[['a']], [['b']]] ∧
    readRows defaultDialect 2 ⟨writerows defaultWriter [] [[]], false⟩ =
      [[[]]] ∧
    ([[[]]] : List (List (List Char))) ≠ [[]] ∧
    readRows defaultDialect 2
        ⟨writerows ⟨',', '"', ['x']⟩ [] [[['a']]], false⟩ = [[['a', 'x']]] ∧
    ([[['a', 'x']]] : List (List (List Char))) ≠ [[['a']]] := by
  refine ⟨by decide, by decide, by decide, by decide, by decide, by decide,
    by decide⟩

/-- C1 (amended): for every finite sequence of rows with at least one field
each, and every dialect whose delimiter and quote character are distinct and
are not line-break characters, with a line terminator the reader recognizes
(`\n`, `\r\n` or `\r`), writing the rows with `writerows` and parsing the
produced text with a fresh reader over the same delimiter and quote character
yields exactly the original rows, field for field; in particular writing `N`
rows reads back as exactly `N` rows, never `N + 1`. -/
theorem c1_roundtrip (w : WriterDialect) (hs : saneWriter w)
    (hterm : w.lineTerminator = ['\n'] ∨ w.lineTerminator = ['\r', '\n'] ∨
      w.lineTerminator = ['\r'])
    (rows : List (List (List Char))) (hrows : ∀ r ∈ rows, r ≠ [])
    (fuel : Nat) (hfuel : rows.length < fuel) :
    readRows w.toReader fuel ⟨writerows w [] rows, false⟩ = rows ∧
      (readRows w.toReader fuel ⟨writerows w [] rows, false⟩).length =
        rows.length := by
  have h : readRows w.toReader fuel ⟨writerows w [] rows, false⟩ = rows := by
    rw [writerows_eq w rows [], List.nil_append]
    exact readback w hs hterm rows hrows fuel hfuel
  exact ⟨h, by rw [h]⟩

/-- C1 witness: the round-trip theorem instantiated at the spec's end-to-end
scenario, rows `[["a", "b,c"], ["d\"e", "f\ng"]]` under the default
dialect. -/
theorem c1_roundtrip_witness :
    readRows defaultWriter.toReader 3
        ⟨writerows defaultWriter []
          [[['a'], ['b', ',', 'c']], [['d', '"', 'e'], ['f', '\n', 'g']]],
          false⟩ =
      [[['a'], ['b', ',', 'c']], [['d', '"', 'e'], ['f', '\n', 'g']]] ∧
    (readRows defaultWriter.toReader 3
        ⟨writerows defaultWriter []
          [[['a'], ['b', ',', 'c']], [['d', '"', 'e'], ['f', '\n', 'g']]],
          false⟩).length = 2 :=
  c1_roundtrip defaultWriter (by decide) (Or.inl rfl)
    [[['a'], ['b', ',', 'c']], [['d', '"', 'e'], ['f', '\n', 'g']]]
    (by decide) 3 (by decide)

/-! ### C2: quoting starting mid-field -/

lemma scan_inquotes (d : Dialect) (mid : List Char)
    (hmid : ∀ c ∈ mid, c ≠ d.quotechar) :
    ∀ rest field row, nextLoop d (mid ++ rest) field row true =
      nextLoop d rest (field ++ mid) row true := by
  induction mid with
  | nil => intro rest field row; simp
  | cons c cs ih =>
      intro rest field row
      rw [List.cons_append, step_inquotes_other d c _ field row (hmid c (by simp)),
        ih (fun x hx => hmid x (List.mem_cons_of_mem c hx)) rest (field ++ [c])
          row, List.append_assoc]
      rfl

/-- C2 counterexample: in the stream `a"b,c"d\n` the first field's first raw
character is `a`, not the quote character, yet the reader parses the whole
line as the single field `ab,cd`: the quote after the accumulated `a` opened a
quoted section (the delimiter `,` was consumed as field content instead of
splitting the row into two fields), contradicting the claim that quoting
cannot start mid-field. -/
theorem c2_quote_midfield_cx :
    readRows defaultDialect 2
        ⟨['a', '"', 'b', ',', 'c', '"', 'd', '\n'], false⟩ =
      [[['a', 'b', ',', 'c', 'd']]] ∧
    [[['a', 'b', ',', 'c', 'd']]].length = 1 ∧
    [['a', 'b', ',', 'c', 'd']].length = 1 ∧
    (',' : Char) ∈ ['a', 'b', ',', 'c', 'd'] := by
  exact ⟨by decide, by decide, by decide, by decide⟩

/-- C2 (amended): a quote character read outside a quoted section always
opens a quoted section, even when other characters have already been
accumulated into the current field: after an unquoted plain prefix `pre`, a
quote makes the following content `mid` (free of the quote character, but
delimiters and line breaks allowed) accumulate literally, and the next quote
closes the section, leaving the field accumulator `field ++ pre ++ mid` in
unquoted mode. -/
theorem c2_quote_opens (d : Dialect) (pre mid : List Char) (c2 : Char)
    (rest2 field : List Char) (row : List (List Char))
    (hpre : ∀ c ∈ pre, plainChar d c) (hmid : ∀ c ∈ mid, c ≠ d.quotechar)
    (hc2 : c2 ≠ d.quotechar) :
    nextLoop d (pre ++ d.quotechar :: (mid ++ d.quotechar :: c2 :: rest2))
        field row false =
      nextLoop d (c2 :: rest2) (field ++ pre ++ mid) row false := by
  rw [scan_plain d pre hpre _ field row, step_quote_open,
    scan_inquotes d mid hmid _ (field ++ pre) row,
    step_close d c2 rest2 _ row hc2]

/-- C2 witness: the amended theorem at the counterexample stream `a"b,c"d\n`:
after `a` the quote opens a section, `b,c` is consumed literally, and parsing
resumes unquoted at `d` with accumulator `ab,c`. -/
theorem c2_quote_opens_witness :
    nextLoop defaultDialect
        (['a'] ++ '"' :: (['b', ',', 'c'] ++ '"' :: 'd' :: ['\n']))
        [] [] false =
      nextLoop defaultDialect ('d' :: ['\n']) ([] ++ ['a'] ++ ['b', ',', 'c'])
        [] false :=
  c2_quote_opens defaultDialect ['a'] ['b', ',', 'c'] 'd' ['\n'] [] []
    (by decide) (by decide) (by decide)

/-! ### C3: writer quoting policy -/

lemma doubleQuotes_length (q : Char) :
    ∀ f : List Char, f.length ≤ (doubleQuotes q f).length := by
  intro f
  induction f with
  | nil => simp [doubleQuotes]
  | cons c cs ih =>
      rw [doubleQuotes]
      by_cases h : c = q
      · rw [if_pos h]; simp; omega
      · rw [if_neg h]; simp; omega

/-- C3: a field is emitted wrapped in quote characters exactly when it
contains the delimiter, the quote character, `\n` or `\r`; when quoted, every
inner quote character is doubled before wrapping; otherwise the field is
emitted verbatim (and a field needing quotes is never emitted verbatim: the
wrapped form is strictly longer).  Concretely, `plain` emits `plain`, `a,b`
emits `"a,b"` and `a"b` emits `"a""b"`. -/
theorem c3_quote_policy :
    (∀ (w : WriterDialect) (f : List Char),
        (w.delimiter ∈ f ∨ w.quotechar ∈ f ∨ '\n' ∈ f ∨ '\r' ∈ f →
          quoteField w f =
            w.quotechar :: (doubleQuotes w.quotechar f ++ [w.quotechar])) ∧
        (quoteField w f = f ↔
          ¬(w.delimiter ∈ f ∨ w.quotechar ∈ f ∨ '\n' ∈ f ∨ '\r' ∈ f))) ∧
    quoteField defaultWriter ['p', 'l', 'a', 'i', 'n'] =
      ['p', 'l', 'a', 'i', 'n'] ∧
    quoteField defaultWriter ['a', ',', 'b'] = ['"', 'a', ',', 'b', '"'] ∧
    quoteField defaultWriter ['a', '"', 'b'] =
      ['"', 'a', '"', '"', 'b', '"'] := by
  refine ⟨?_, by decide, by decide, by decide⟩
  intro w f
  refine ⟨?_, ?_, ?_⟩
  · intro h; unfold quoteField; rw [if_pos h]
  · intro heq hneed
    unfold quoteField at heq
    rw [if_pos hneed] at heq
    have hlen := congrArg List.length heq
    have hge := doubleQuotes_length w.quotechar f
    simp at hlen
    omega
  · intro h; unfold quoteField; rw [if_neg h]

/-- C3 witness: the policy theorem applied at a concrete plain field and a
concrete field containing the delimiter. -/
theorem c3_quote_policy_witness :
    quoteField defaultWriter ['x'] = ['x'] ∧
    quoteField defaultWriter ['x', ','] =
      defaultWriter.quotechar ::
        (doubleQuotes defaultWriter.quotechar ['x', ','] ++
          [defaultWriter.quotechar]) :=
  ⟨(c3_quote_policy.1 defaultWriter ['x']).2.mpr (by decide),
    (c3_quote_policy.1 defaultWriter ['x', ',']).1 (by decide)⟩

/-! ### C4: escaped quote inside a quoted section -/

/-- C4: inside a quoted section, a quote character immediately followed by
another quote character appends exactly one literal quote character to the
current field and stays inside the quoted section; the raw quoted field
`"He said ""hi"""` parses to the single field value `He said "hi"`. -/
theorem c4_escaped_quote :
    (∀ (d : Dialect) (rest2 field : List Char) (row : List (List Char)),
        nextLoop d (d.quotechar :: d.quotechar :: rest2) field row true =
          nextLoop d rest2 (field ++ [d.quotechar]) row true) ∧
    readRows defaultDialect 2
        ⟨("\"He said \"\"hi\"\"\"").toList, false⟩ =
      [[("He said \"hi\"").toList]] :=
  ⟨fun d rest2 field row => step_escaped d rest2 field row, by decide⟩

/-! ### C5: line-ending tolerance -/

/-- The input stream holding the given rows of raw (unquoted) field content,
each row's fields joined by the delimiter and the row closed by `term`. -/
def plainRowsText (d : Dialect) (term : List Char)
    (rows : List (List (List Char))) : List Char :=
  (rows.map (fun r => joinFields d.delimiter r ++ term)).flatten

lemma quoteField_plain (d : Dialect) (term f : List Char)
    (h : ∀ c ∈ f, plainChar d c) :
    quoteField ⟨d.delimiter, d.quotechar, term⟩ f = f := by
  unfold quoteField
  apply if_neg
  intro hmem
  rcases hmem with hm | hm | hm | hm
  · exact (h _ hm).2.1 rfl
  · exact (h _ hm).1 rfl
  · exact (h _ hm).2.2.1 rfl
  · exact (h _ hm).2.2.2 rfl

lemma map_quoteField_plain (d : Dialect) (term : List Char)
    (r : List (List Char)) (h : ∀ f ∈ r, ∀ c ∈ f, plainChar d c) :
    r.map (quoteField ⟨d.delimiter, d.quotechar, term⟩) = r := by
  induction r with
  | nil => rfl
  | cons f fs ih =>
      rw [List.map_cons, quoteField_plain d term f (h f (by simp)),
        ih (fun x hx => h x (List.mem_cons_of_mem f hx))]

lemma plainRowsText_eq (d : Dialect) (term : List Char)
    (rows : List (List (List Char)))
    (hplain : ∀ r ∈ rows, ∀ f ∈ r, ∀ c ∈ f, plainChar d c) :
    plainRowsText d term rows =
      rowsText ⟨d.delimiter, d.quotechar, term⟩ rows := by
  unfold plainRowsText rowsText
  induction rows with
  | nil => rfl
  | cons r rs ih =>
      rw [List.map_cons, List.map_cons, List.flatten_cons, List.flatten_cons,
        map_quoteField_plain d term r (hplain r (by simp)),
        ih (fun x hx => hplain x (List.mem_cons_of_mem r hx))]

/-- C5 (amended): rows of identical plain field content (no delimiter, quote
or line-break characters in any field) parse identically whether the rows are
closed by `\n`, by `\r\n`, or by bare `\r` — each stream parses to exactly the
given rows.  Moreover, after an unquoted `\r` the reader pulls one more
character and pushes it back unless it is `\n` (which it consumes) or
end-of-stream, so no following character is lost. -/
theorem c5_line_endings (d : Dialect)
    (hdq : d.delimiter ≠ d.quotechar)
    (hd1 : d.delimiter ≠ '\n') (hd2 : d.delimiter ≠ '\r')
    (hq1 : d.quotechar ≠ '\n') (hq2 : d.quotechar ≠ '\r')
    (rows : List (List (List Char)))
    (hrows : ∀ r ∈ rows, r ≠ [])
    (hplain : ∀ r ∈ rows, ∀ f ∈ r, ∀ c ∈ f, plainChar d c)
    (fuel : Nat) (hfuel : rows.length < fuel) :
    (readRows d fuel ⟨plainRowsText d ['\n'] rows, false⟩ = rows ∧
     readRows d fuel ⟨plainRowsText d ['\r', '\n'] rows, false⟩ = rows ∧
     readRows d fuel ⟨plainRowsText d ['\r'] rows, false⟩ = rows) ∧
    (∀ (c : Char) (rest field : List Char) (row : List (List Char)),
        c ≠ '\n' →
          nextLoop d ('\r' :: c :: rest) field row false =
            (some (row ++ [field]), c :: rest, false)) ∧
    (∀ (rest field : List Char) (row : List (List Char)),
        nextLoop d ('\r' :: '\n' :: rest) field row false =
          (some (row ++ [field]), rest, false)) ∧
    (∀ (field : List Char) (row : List (List Char)),
        nextLoop d ['\r'] field row false =
          (some (row ++ [field]), [], false)) := by
  have hrq : ('\r' : Char) ≠ d.quotechar := fun h => hq2 h.symm
  have hrd : ('\r' : Char) ≠ d.delimiter := fun h => hd2 h.symm
  refine ⟨⟨?_, ?_, ?_⟩,
    fun c rest field row hc => step_cr_other d c rest field row hrq hrd hc,
    fun rest field row => step_cr_lf d rest field row hrq hrd,
    fun field row => step_cr_nil d field row hrq hrd⟩
  · rw [plainRowsText_eq d ['\n'] rows hplain]
    exact readback ⟨d.delimiter, d.quotechar, ['\n']⟩
      ⟨hdq, hd1, hd2, hq1, hq2⟩ (Or.inl rfl) rows hrows fuel hfuel
  · rw [plainRowsText_eq d ['\r', '\n'] rows hplain]
    exact readback ⟨d.delimiter, d.quotechar, ['\r', '\n']⟩
      ⟨hdq, hd1, hd2, hq1, hq2⟩ (Or.inr (Or.inl rfl)) rows hrows fuel hfuel
  · rw [plainRowsText_eq d ['\r'] rows hplain]
    exact readback ⟨d.delimiter, d.quotechar, ['\r']⟩
      ⟨hdq, hd1, hd2, hq1, hq2⟩ (Or.inr (Or.inr rfl)) rows hrows fuel hfuel

/-- C5 witness: the tolerance theorem at the concrete rows
`[["a", "b"], ["c"]]` under the default dialect. -/
theorem c5_line_endings_witness :
    readRows defaultDialect 3
        ⟨plainRowsText defaultDialect ['\n'] [[['a'], ['b']], [['c']]],
          false⟩ = [[['a'], ['b']], [['c']]] ∧
    readRows defaultDialect 3
        ⟨plainRowsText defaultDialect ['\r', '\n'] [[['a'], ['b']], [['c']]],
          false⟩ = [[['a'], ['b']], [['c']]] ∧
    readRows defaultDialect 3
        ⟨plainRowsText defaultDialect ['\r'] [[['a'], ['b']], [['c']]],
          false⟩ = [[['a'], ['b']], [['c']]] :=
  (c5_line_endings defaultDialect (by decide) (by decide) (by decide)
    (by decide) (by decide) [[['a'], ['b']], [['c']]] (by decide) (by decide)
    3 (by decide)).1

/-! ### C6: unterminated quote at end of stream -/

/-- C6: when the stream ends with content pending — whether or not a quoted
section is still open (the `iq` flag is arbitrary) — the reader signals no
error: it returns the accumulated content as the final field of the final
row.  In particular the stream `"abc`, which ends inside an open quote, parses
to the single row with the single field `abc`. -/
theorem c6_unterminated_quote :
    (∀ (d : Dialect) (field : List Char) (row : List (List Char)) (iq : Bool),
        field ≠ [] ∨ row ≠ [] →
          nextLoop d [] field row iq = (some (row ++ [field]), [], true)) ∧
    readRows defaultDialect 2 ⟨("\"abc").toList, false⟩ =
      [[['a', 'b', 'c']]] := by
  refine ⟨?_, by decide⟩
  intro d field row iq h
  rw [nextLoop_nil, if_neg (fun hc => h.elim (fun h1 => h1 hc.1)
    (fun h2 => h2 hc.2))]

/-- C6 witness: the end-of-stream theorem applied with the nonempty
accumulator `abc` inside an open quote. -/
theorem c6_unterminated_quote_witness :
    (['a', 'b', 'c'] ≠ ([] : List Char) ∨ ([] : List (List Char)) ≠ []) ∧
    nextLoop defaultDialect [] ['a', 'b', 'c'] [] true =
      (some ([] ++ [['a', 'b', 'c']]), [], true) :=
  ⟨Or.inl (by decide),
    c6_unterminated_quote.1 defaultDialect ['a', 'b', 'c'] [] true
      (Or.inl (by decide))⟩

/-! ### C7: writer output shape -/

/-- C7: writing one row appends to the sink exactly the quoted/unquoted field
texts joined by the delimiter followed by the line terminator; writing a
sequence of rows appends exactly the concatenation of each row's output in
order (`rowsText`), with nothing inserted between rows; writing the rows
`[["a", "b,c"], ["d\"e", "f\ng"]]` with the default dialect produces exactly
`a,"b,c"\n"d""e","f\ng"\n`. -/
theorem c7_writerow_output :
    (∀ (w : WriterDialect) (sink : List Char) (row : List (List Char)),
        writerow w sink row =
          sink ++ (joinFields w.delimiter (row.map (quoteField w)) ++
            w.lineTerminator)) ∧
    (∀ (w : WriterDialect) (sink : List Char) (rows : List (List (List Char))),
        writerows w sink rows = sink ++ rowsText w rows) ∧
    writerows defaultWriter []
        [[['a'], ['b', ',', 'c']], [['d', '"', 'e'], ['f', '\n', 'g']]] =
      ("a,\"b,c\"\n\"d\"\"e\",\"f\ng\"\n").toList :=
  ⟨fun _ _ _ => rfl, fun w sink rows => writerows_eq w rows sink, by decide⟩

/-! ### C8 and C9: result invariants of the parsing loop -/

/-- The invariant of one `__next__` call's result: a returned row is never
the empty list of fields, and `StopIteration` is only raised with the `_eof`
flag set. -/
def goodResult (t : Option (List (List Char)) × List Char × Bool) : Prop :=
  (∀ x, t.1 = some x → x ≠ []) ∧ (t.1 = none → t.2.2 = true)

lemma goodResult_some (row : List (List Char)) (field rest : List Char)
    (e : Bool) : goodResult (some (row ++ [field]), rest, e) := by
  refine ⟨?_, by simp⟩
  intro x hx
  simp only [Option.some.injEq] at hx
  subst hx
  simp

lemma nextLoop_good (d : Dialect) :
    ∀ input field row iq, goodResult (nextLoop d input field row iq) := by
  intro input field row iq
  induction input, field, row, iq using nextLoop.induct d with
  | case1 field row iq h =>
      rw [nextLoop_nil, if_pos h]
      exact ⟨fun x hx => by simp at hx, fun _ => rfl⟩
  | case2 field row iq h =>
      rw [nextLoop_nil, if_neg h]
      exact goodResult_some row field [] true
  | case3 field row h =>
      rw [step_close_eof, if_pos h]
      exact ⟨fun x hx => by simp at hx, fun _ => rfl⟩
  | case4 field row h =>
      rw [step_close_eof, if_neg h]
      exact goodResult_some row field [] true
  | case5 field row rest2 ih =>
      rw [step_escaped]
      exact ih
  | case6 field row c2 rest2 h ih =>
      rw [step_close d c2 rest2 field row h]
      exact ih
  | case7 rest field row iq h ih =>
      have hiq : iq = false := by simpa using h
      subst hiq
      rw [step_quote_open]
      exact ih
  | case8 ch rest field row iq h1 h2 ih =>
      obtain ⟨hd, hq⟩ := h2
      subst hd
      subst hq
      rw [step_delim d rest field row h1]
      exact ih
  | case9 field row iq h1 h2 h3 =>
      have hiq : iq = false := h3.2
      subst hiq
      have hd : ('\r' : Char) ≠ d.delimiter := fun hh => h2 ⟨hh, rfl⟩
      rw [step_cr_nil d field row h1 hd]
      exact goodResult_some row field [] false
  | case10 field row iq rest2 h1 h2 h3 =>
      have hiq : iq = false := h3.2
      subst hiq
      have hd : ('\r' : Char) ≠ d.delimiter := fun hh => h2 ⟨hh, rfl⟩
      rw [step_cr_lf d rest2 field row h1 hd]
      exact goodResult_some row field rest2 false
  | case11 field row iq c2 rest2 h0 h1 h2 h3 =>
      have hiq : iq = false := h3.2
      subst hiq
      have hd : ('\r' : Char) ≠ d.delimiter := fun hh => h2 ⟨hh, rfl⟩
      rw [step_cr_other d c2 rest2 field row h1 hd h0]
      exact goodResult_some row field (c2 :: rest2) false
  | case12 ch rest field row iq hq hdel hor hcr =>
      have hiq : iq = false := hor.2
      subst hiq
      have hnl : ch = '\n' := by
        rcases hor.1 with h | h
        · exact h
        · exact absurd h hcr
      subst hnl
      have hd : ('\n' : Char) ≠ d.delimiter := fun hh => hdel ⟨hh, rfl⟩
      rw [step_lf d rest field row hq hd]
      exact goodResult_some row field rest false
  | case13 ch rest field row iq hq hdel hor ih =>
      by_cases hiq : iq = true
      · subst hiq
        rw [step_inquotes_other d ch rest field row hq]
        exact ih
      · have hiq2 : iq = false := by simpa using hiq
        subst hiq2
        have h1 : ch ≠ d.delimiter := fun hh => hdel ⟨hh, rfl⟩
        have h2 : ¬(ch = '\n' ∨ ch = '\r') := fun hh => hor ⟨hh, rfl⟩
        rw [not_or] at h2
        rw [step_other d ch rest field row ⟨hq, h1, h2.1, h2.2⟩]
        exact ih

/-- C8: every row `__next__` returns contains at least one field (an empty
field is the empty string, never an absent row), and a completely empty
stream yields zero rows: the reader stops immediately. -/
theorem c8_row_nonempty :
    (∀ (d : Dialect) (s : ReaderState) (r : List (List Char))
        (s2 : ReaderState), csvNext d s = (some r, s2) → r ≠ []) ∧
    (∀ (d : Dialect) (fuel : Nat), readRows d fuel ⟨[], false⟩ = []) := by
  constructor
  · intro d s r s2 h
    unfold csvNext at h
    by_cases he : s.eof
    · rw [if_pos he] at h
      simp at h
    · rw [if_neg he] at h
      rcases hEq : nextLoop d s.stream [] [] false with ⟨r1, rest1, e1⟩
      rw [hEq] at h
      simp only [Prod.mk.injEq] at h
      have hg := nextLoop_good d s.stream [] [] false
      rw [hEq] at hg
      exact hg.1 r h.1
  · intro d fuel
    cases fuel with
    | zero => rfl
    | succ k => rfl

/-- C8 witness: the first conjunct applied at the concrete stream `x\n`,
whose first pull returns the one-field row `["x"]`. -/
theorem c8_row_nonempty_witness :
    csvNext defaultDialect ⟨['x', '\n'], false⟩ =
      (some [['x']], ⟨[], false⟩) ∧ ([['x']] : List (List Char)) ≠ [] :=
  ⟨rfl, c8_row_nonempty.1 defaultDialect ⟨['x', '\n'], false⟩ [['x']]
    ⟨[], false⟩ rfl⟩

/-- C9: once the reader has raised `StopIteration` its `_eof` flag is set,
and with the flag set every subsequent `__next__` raises immediately and
leaves the stream untouched, even if the stream still holds characters. -/
theorem c9_eof_sticky :
    (∀ (d : Dialect) (s : ReaderState), s.eof = true → csvNext d s = (none, s)) ∧
    (∀ (d : Dialect) (s s2 : ReaderState),
        csvNext d s = (none, s2) → s2.eof = true) := by
  constructor
  · intro d s h
    unfold csvNext
    rw [if_pos h]
  · intro d s s2 h
    unfold csvNext at h
    by_cases he : s.eof
    · rw [if_pos he] at h
      simp only [Prod.mk.injEq] at h
      rw [← h.2]
      exact he
    · rw [if_neg he] at h
      rcases hEq : nextLoop d s.stream [] [] false with ⟨r1, rest1, e1⟩
      rw [hEq] at h
      simp only [Prod.mk.injEq] at h
      have hg := nextLoop_good d s.stream [] [] false
      rw [hEq] at hg
      rw [← h.2]
      exact hg.2 h.1

/-- C9 witness: with the `_eof` flag set the reader raises immediately and
consumes nothing, although the stream still holds the character `x`. -/
theorem c9_eof_sticky_witness :
    csvNext defaultDialect ⟨['x'], true⟩ = (none, ⟨['x'], true⟩) :=
  c9_eof_sticky.1 defaultDialect ⟨['x'], true⟩ rfl

/-! ### C10: subclass and alias equivalence -/

/-- C10: the subclass `CustomCsvWriter` of `custom_csv_writer.py` produces
through `writerow`/`writerows` exactly the base class's appends — the parent
call succeeds, so the `AttributeError` fallback branches are unreachable —
and the base class's aliases `write_row` and `write_rows` are extensionally
equal to `writerow` and `writerows`. -/
theorem c10_subclass_equiv :
    (∀ (w : WriterDialect) (sink : List Char) (row : List (List Char)),
        sub_writerow w sink row = Except.ok (writerow w sink row)) ∧
    (∀ (w : WriterDialect) (sink : List Char) (rows : List (List (List Char))),
        sub_writerows w sink rows = Except.ok (writerows w sink rows)) ∧
    (∀ (w : WriterDialect) (sink : List Char) (row : List (List Char)),
        write_row w sink row = writerow w sink row) ∧
    (∀ (w : WriterDialect) (sink : List Char) (rows : List (List (List Char))),
        write_rows w sink rows = writerows w sink rows) :=
  ⟨fun _ _ _ => rfl, fun _ _ _ => rfl, fun _ _ _ => rfl, fun _ _ _ => rfl⟩

/-- C5 counterexample: the tolerance claim fails for rows whose field content
contains the quote character.  For the single row with single field `"` the
three streams are `"\n`, `"\r\n` and `"\r`; in each the quote opens a quoted
section, so the row break is consumed as field content and the three streams
parse to three different rows. -/
theorem c5_line_endings_cx :
    readRows defaultDialect 2
        ⟨plainRowsText defaultDialect ['\n'] [[['"']]], false⟩ =
      [[['\n']]] ∧
    readRows defaultDialect 2
        ⟨plainRowsText defaultDialect ['\r', '\n'] [[['"']]], false⟩ =
      [[['\r', '\n']]] ∧
    readRows defaultDialect 2
        ⟨plainRowsText defaultDialect ['\r'] [[['"']]], false⟩ =
      [[['\r']]] ∧
    ([[['\n']]] : List (List (List Char))) ≠ [[['\r', '\n']]] ∧
    ([[['\n']]] : List (List (List Char))) ≠ [[['\r']]] ∧
    ([[['\r', '\n']]] : List (List (List Char))) ≠ [[['\r']]] := by
  exact ⟨by decide, by decide, by decide, by decide, by decide, by decide⟩
